import Mathlib

/-!
Shallow embedding of the BankingAppRust ledger (src/bank.rs, src/primitives.rs).

Modelling conventions:
* `f64` balances and rates are modelled as exact rationals `ℚ`; the Rust
  arithmetic (`+`, `-`, `*`, comparisons) is translated to the corresponding
  rational operations.  `f64::MAX` becomes the exact rational value `FMAX`.
* `u64` identifiers are modelled as `ℕ` (the id counter only ever increases by
  one per registration, so wrap-around is irrelevant to the claims).
* `std::collections::HashMap` is modelled as an association list with the usual
  lookup / insert-or-replace / remove-first operations; the Rust maps always
  have pairwise-distinct keys, which appears below either as an invariant of
  reachable states or as an explicit hypothesis.
* `DefaultHasher` applied to `(username, password)` is modelled as the
  injective pairing `(username, password)`, matching the spec's description of
  the credential as a deterministic collision-resistant mix of the two.
* `println!` output is ignored; `&self` methods are modelled as read-only
  functions.
-/

namespace BankingApp

/-- primitives.rs: `pub const INTEREST_RATE: f64 = 0.01f64`. -/
def INTEREST_RATE : ℚ := 1 / 100

/-- primitives.rs: `pub const TAX_RATE: f64 = 0.02f64`. -/
def TAX_RATE : ℚ := 2 / 100

/-- primitives.rs: `pub const ED: f64 = 5f64`. -/
def ED : ℚ := 5

/-- primitives.rs: `pub type UserId = u64`. -/
abbrev UserId := ℕ

/-- primitives.rs: `pub type Balance = f64`, modelled as `ℚ`. -/
abbrev Balance := ℚ

/-- primitives.rs: `pub type HashResult = u64`; the credential hash is
modelled as the injective pair `(username, password)`. -/
abbrev HashResult := String × String

/-- Exact value of `f64::MAX`, used by the saturating interest arithmetic. -/
def FMAX : ℚ := 2 ^ 1024 - 2 ^ 971

/-- primitives.rs: `pub enum Role`. -/
inductive Role where
  | Customer
  | Manager
  | Auditor
deriving DecidableEq, Repr

/-- primitives.rs: `pub struct User`. -/
structure User where
  id : UserId
  username : String
  role : Role
deriving DecidableEq, Repr

/-- primitives.rs: `pub enum BankingError`. -/
inductive BankingError where
  | Unauthorized
  | InsufficientBalance
  | InvalidAmount
  | FailedLogin
  | NoUserFound
  | AmountTooSmall
  | InvalidUserId
  | InvalidTaxRate
  | InvalidInterestRate
  | UserAlreadyExist
deriving DecidableEq, Repr

/-- primitives.rs: `pub enum Event`. -/
inductive Event where
  | Deposit (id : UserId) (amount : Balance)
  | Withdrawal (id : UserId) (amount : Balance)
  | AccountReaped (id : UserId) (dust : Balance)
  | Transfer (id : UserId) (to_id : UserId) (amount : Balance)
  | Interest (id : UserId) (interest : Balance)
  | Tax (id : UserId) (tax : Balance)
  | InterestRate (id : UserId) (interest_rate : ℚ)
  | TaxRate (id : UserId) (tax_rate : ℚ)
deriving DecidableEq, Repr

/-- `HashMap::get`, on the association-list model: first matching key. -/
def lookupAL {κ β : Type} [DecidableEq κ] (k : κ) : List (κ × β) → Option β
  | [] => none
  | p :: rest => if p.1 = k then some p.2 else lookupAL k rest

/-- `HashMap::insert`: replace the first binding of the key, else append. -/
def insertAL {κ β : Type} [DecidableEq κ] (k : κ) (v : β) :
    List (κ × β) → List (κ × β)
  | [] => [(k, v)]
  | p :: rest => if p.1 = k then (k, v) :: rest else p :: insertAL k v rest

/-- `HashMap::remove`: drop the first binding of the key. -/
def removeAL {κ β : Type} [DecidableEq κ] (k : κ) :
    List (κ × β) → List (κ × β)
  | [] => []
  | p :: rest => if p.1 = k then rest else p :: removeAL k rest

/-- bank.rs: `pub struct Bank`. -/
structure Bank where
  users : List (HashResult × User)
  balances : List (UserId × Balance)
  events : List Event
  interest_rate : ℚ
  tax_rate : ℚ
  existential_deposit : Balance
  user_id_counter : UserId
deriving DecidableEq, Repr

/-- bank.rs: `impl Default for Bank`. -/
def Bank.default : Bank :=
  { users := []
    balances := []
    events := []
    interest_rate := INTEREST_RATE
    tax_rate := TAX_RATE
    existential_deposit := ED
    user_id_counter := 0 }

/-- bank.rs: `Bank::hash` — `DefaultHasher` over `(username, password)`,
modelled as the injective pair. -/
def Bank.hash (username password : String) : HashResult :=
  (username, password)

/-- bank.rs: `Bank::assert_role`. -/
def Bank.assert_role (b : Bank) (user : HashResult) (role : Role) :
    Except BankingError UserId :=
  match lookupAL user b.users with
  | some u => if u.role = role then .ok u.id else .error .Unauthorized
  | none => .error .NoUserFound

/-- bank.rs: `Bank::has_username`. -/
def Bank.has_username (b : Bank) (username : String) : Bool :=
  b.users.any (fun p => p.2.username = username)

/-- bank.rs: `Bank::create_user`.  `generate_next_user_id` is inlined: the
counter is incremented and the new value used as the id. -/
def Bank.create_user (b : Bank) (username password : String) (role : Role) :
    Option BankingError × Bank :=
  if b.has_username username then
    (some .UserAlreadyExist, b)
  else
    let hash_result := Bank.hash username password
    let counter1 := b.user_id_counter + 1
    let new_user : User := { id := counter1, username := username, role := role }
    (none, { b with
              users := insertAL hash_result new_user b.users
              user_id_counter := counter1 })

/-- bank.rs: `Bank::login` (read-only, `&self`). -/
def Bank.login (b : Bank) (username password : String) :
    Except BankingError (HashResult × Role) :=
  let hash_result := Bank.hash username password
  match lookupAL hash_result b.users with
  | some u => .ok (hash_result, u.role)
  | none => .error .FailedLogin

/-- bank.rs: `Bank::change_password`.  The Rust code calls
`self.users.remove(&user)` first and only then matches on the returned
option, so the removal is performed before the error check (removing an
absent key leaves the map unchanged). -/
def Bank.change_password (b : Bank) (user : HashResult) (new_password : String) :
    Option BankingError × Bank :=
  let removed := lookupAL user b.users
  let users1 := removeAL user b.users
  match removed with
  | none => (some .NoUserFound, { b with users := users1 })
  | some user_data =>
    let new_hash := Bank.hash user_data.username new_password
    (none, { b with users := insertAL new_hash user_data users1 })

/-- bank.rs: `Bank::report` (read-only, `&self`; printing ignored). -/
def Bank.report (b : Bank) (user : HashResult) : Option BankingError :=
  match lookupAL user b.users with
  | some u => if u.role ≠ Role.Customer then none else some .Unauthorized
  | none => some .NoUserFound

/-- bank.rs: `Bank::deposit`. -/
def Bank.deposit (b : Bank) (user : HashResult) (amount : Balance) :
    Option BankingError × Bank :=
  if amount ≤ 0 then
    (some .InvalidAmount, b)
  else
    match b.assert_role user Role.Customer with
    | .error e => (some e, b)
    | .ok id =>
      match lookupAL id b.balances with
      | some balance =>
        (none, { b with
                  balances := insertAL id (balance + amount) b.balances
                  events := b.events ++ [Event.Deposit id amount] })
      | none =>
        if amount < b.existential_deposit then
          (some .AmountTooSmall, b)
        else
          (none, { b with
                    balances := insertAL id amount b.balances
                    events := b.events ++ [Event.Deposit id amount] })

/-- bank.rs: `Bank::withdraw`. -/
def Bank.withdraw (b : Bank) (user : HashResult) (amount : Balance) :
    Option BankingError × Bank :=
  if amount ≤ 0 then
    (some .InvalidAmount, b)
  else
    match b.assert_role user Role.Customer with
    | .error e => (some e, b)
    | .ok id =>
      match lookupAL id b.balances with
      | none => (some .InsufficientBalance, b)
      | some balance =>
        if amount ≤ balance then
          let new_balance := balance - amount
          let b1 := { b with events := b.events ++ [Event.Withdrawal id amount] }
          if b.existential_deposit ≤ new_balance then
            (none, { b1 with balances := insertAL id new_balance b1.balances })
          else
            (none, { b1 with
                      balances := removeAL id b1.balances
                      events := b1.events ++ [Event.AccountReaped id new_balance] })
        else
          (some .InsufficientBalance, b)

/-- bank.rs: `Bank::transfer`. -/
def Bank.transfer (b : Bank) (user : HashResult) (amount : Balance)
    (target : UserId) : Option BankingError × Bank :=
  match b.assert_role user Role.Customer with
  | .error e => (some e, b)
  | .ok id =>
    if id = target then
      (none, b)
    else if amount ≤ 0 then
      (some .InvalidAmount, b)
    else if amount < b.existential_deposit then
      (some .AmountTooSmall, b)
    else
      match b.users.find? (fun p =>
          decide (p.2.id = target ∧ p.2.role = Role.Customer)) with
      | none => (some .InvalidUserId, b)
      | some _ =>
        let to_user_balance := (lookupAL target b.balances).getD 0
        match lookupAL id b.balances with
        | none => (some .InsufficientBalance, b)
        | some balance =>
          if amount ≤ balance then
            let new_balance := balance - amount
            let b1 :=
              if b.existential_deposit ≤ new_balance then
                { b with balances := insertAL id new_balance b.balances }
              else
                { b with
                    balances := removeAL id b.balances
                    events := b.events ++ [Event.AccountReaped id new_balance] }
            let b2 := { b1 with
                         balances := insertAL target (to_user_balance + amount) b1.balances }
            (none, { b2 with
                      events := b2.events ++ [Event.Transfer id target amount] })
          else
            (some .InsufficientBalance, b)

/-- bank.rs: `Bank::check_balance` (read-only, `&self`). -/
def Bank.check_balance (b : Bank) (user : HashResult) :
    Except BankingError Balance :=
  match b.assert_role user Role.Customer with
  | .error e => .error e
  | .ok id => .ok ((lookupAL id b.balances).getD 0)

/-- bank.rs: `Bank::set_interest_rate`. -/
def Bank.set_interest_rate (b : Bank) (user : HashResult) (rate : ℚ) :
    Option BankingError × Bank :=
  if rate < 0 then
    (some .InvalidInterestRate, b)
  else
    match lookupAL user b.users with
    | some u =>
      if u.role = Role.Manager then
        (none, { b with
                  interest_rate := rate
                  events := b.events ++ [Event.InterestRate u.id rate] })
      else
        (some .Unauthorized, b)
    | none => (some .NoUserFound, b)

/-- bank.rs: `Bank::set_tax_rate`. -/
def Bank.set_tax_rate (b : Bank) (user : HashResult) (rate : ℚ) :
    Option BankingError × Bank :=
  if ¬ (0 ≤ rate ∧ rate ≤ 1) then
    (some .InvalidTaxRate, b)
  else
    match lookupAL user b.users with
    | some u =>
      if u.role = Role.Auditor then
        (none, { b with
                  tax_rate := rate
                  events := b.events ++ [Event.TaxRate u.id rate] })
      else
        (some .Unauthorized, b)
    | none => (some .NoUserFound, b)

/-- The per-balance computation of `Bank::pay_interest`: saturate at
`f64::MAX` when `balance > MAX / (1 + rate)`, else multiply by `1 + rate`. -/
def interestedBalance (rate v : ℚ) : ℚ :=
  if FMAX / (1 + rate) < v then FMAX else v * (1 + rate)

/-- bank.rs: `Bank::pay_interest`.  The Rust loop first mutates every balance
in place (collecting the per-account interest), then pushes one `Interest`
event per account in iteration order. -/
def Bank.pay_interest (b : Bank) (user : HashResult) :
    Option BankingError × Bank :=
  match lookupAL user b.users with
  | none => (some .NoUserFound, b)
  | some u =>
    if u.role = Role.Manager then
      let rate := b.interest_rate
      (none, { b with
                balances := b.balances.map (fun p => (p.1, interestedBalance rate p.2))
                events := b.events ++ b.balances.map
                  (fun p => Event.Interest p.1 (interestedBalance rate p.2 - p.2)) })
    else
      (some .Unauthorized, b)

/-- The triples `(id, new_balance, tax)` collected by `Bank::take_tax` before
its event-emitting loop: `tax = balance * rate`, `new = balance * (1 - rate)`. -/
def taxTriples (rate : ℚ) (l : List (UserId × Balance)) :
    List (UserId × ℚ × ℚ) :=
  l.map (fun p => (p.1, p.2 * (1 - rate), p.2 * rate))

/-- The event-emitting loop of `Bank::take_tax`: for each collected triple,
push a `Tax` event, and if the new balance is below ED remove the entry and
push an `AccountReaped` event. -/
def taxLoop (ed : ℚ) : List (UserId × ℚ × ℚ) → Bank → Bank
  | [], b => b
  | t :: rest, b =>
    let b1 := { b with events := b.events ++ [Event.Tax t.1 t.2.2] }
    let b2 :=
      if t.2.1 < ed then
        { b1 with
            balances := removeAL t.1 b1.balances
            events := b1.events ++ [Event.AccountReaped t.1 t.2.1] }
      else b1
    taxLoop ed rest b2

/-- The events appended by `taxLoop`, computed directly. -/
def taxEvents (ed : ℚ) : List (UserId × ℚ × ℚ) → List Event
  | [] => []
  | t :: rest =>
    (Event.Tax t.1 t.2.2 ::
      (if t.2.1 < ed then [Event.AccountReaped t.1 t.2.1] else [])) ++
    taxEvents ed rest

/-- bank.rs: `Bank::take_tax`.  The Rust `iter_mut` first rescales every
balance in place (collecting `(id, new_balance, tax)` triples), then runs the
event/reap loop over the collected triples. -/
def Bank.take_tax (b : Bank) (user : HashResult) : Option BankingError × Bank :=
  match lookupAL user b.users with
  | none => (some .NoUserFound, b)
  | some u =>
    if u.role = Role.Auditor then
      let rate := b.tax_rate
      let ed := b.existential_deposit
      let b1 := { b with
                   balances := b.balances.map (fun p => (p.1, p.2 * (1 - rate))) }
      (none, taxLoop ed (taxTriples rate b.balances) b1)
    else
      (some .Unauthorized, b)

/-- bank.rs: `Bank::print_event` (read-only; printing ignored). -/
def Bank.print_event (b : Bank) (user : HashResult) : Option BankingError :=
  match b.assert_role user Role.Customer with
  | .error e => some e
  | .ok _ => none

/-- bank.rs: `Bank::print_a_user_event` (read-only; printing ignored). -/
def Bank.print_a_user_event (b : Bank) (user : HashResult) (role : Role)
    (user_id : UserId) : Option BankingError :=
  if role = Role.Customer then
    some .Unauthorized
  else
    match b.assert_role user role with
    | .error e => some e
    | .ok _ =>
      match b.users.find? (fun p =>
          decide (p.2.id = user_id ∧ p.2.role = Role.Customer)) with
      | some _ => none
      | none => some .InvalidUserId

/-- bank.rs: `Bank::print_all_events` (read-only; printing ignored). -/
def Bank.print_all_events (b : Bank) (user : HashResult) (role : Role) :
    Option BankingError :=
  if role = Role.Customer then
    some .Unauthorized
  else
    match b.assert_role user role with
    | .error e => some e
    | .ok _ => none

/-- The public operations of the `Bank` API, for whole-system statements. -/
inductive Op where
  | create_user (username password : String) (role : Role)
  | login (username password : String)
  | change_password (user : HashResult) (new_password : String)
  | report (user : HashResult)
  | deposit (user : HashResult) (amount : Balance)
  | withdraw (user : HashResult) (amount : Balance)
  | transfer (user : HashResult) (amount : Balance) (target : UserId)
  | check_balance (user : HashResult)
  | set_interest_rate (user : HashResult) (rate : ℚ)
  | set_tax_rate (user : HashResult) (rate : ℚ)
  | pay_interest (user : HashResult)
  | take_tax (user : HashResult)
  | print_event (user : HashResult)
  | print_a_user_event (user : HashResult) (role : Role) (user_id : UserId)
  | print_all_events (user : HashResult) (role : Role)
deriving DecidableEq, Repr

/-- Drop the success value of an operation, keeping the error if any. -/
def errOf {α : Type} : Except BankingError α → Option BankingError
  | .error e => some e
  | .ok _ => none

/-- Run one public operation on a bank: the error (if any) and the new state.
Read-only (`&self`) operations leave the state unchanged by construction,
exactly as in the Rust borrow discipline. -/
def Bank.run (b : Bank) : Op → Option BankingError × Bank
  | .create_user u p r => b.create_user u p r
  | .login u p => (errOf (b.login u p), b)
  | .change_password c npw => b.change_password c npw
  | .report c => (b.report c, b)
  | .deposit c a => b.deposit c a
  | .withdraw c a => b.withdraw c a
  | .transfer c a t => b.transfer c a t
  | .check_balance c => (errOf (b.check_balance c), b)
  | .set_interest_rate c r => b.set_interest_rate c r
  | .set_tax_rate c r => b.set_tax_rate c r
  | .pay_interest c => b.pay_interest c
  | .take_tax c => b.take_tax c
  | .print_event c => (b.print_event c, b)
  | .print_a_user_event c r uid => (b.print_a_user_event c r uid, b)
  | .print_all_events c r => (b.print_all_events c r, b)

/-- States reachable from the default bank by sequences of operations. -/
inductive Reachable : Bank → Prop where
  | base : Reachable Bank.default
  | step (b : Bank) (op : Op) : Reachable b → Reachable (Bank.run b op).2

/-- The stored balance of a user, or zero when no entry is present. -/
def balAt (b : Bank) (id : UserId) : ℚ :=
  (lookupAL id b.balances).getD 0

/-- Keys of an association list are pairwise distinct (the `HashMap` model
invariant). -/
abbrev keysNodup {κ β : Type} (l : List (κ × β)) : Prop :=
  (l.map Prod.fst).Nodup

/-- Recognizer for `AccountReaped` events of a given user. -/
def isReapOf (id : UserId) : Event → Bool
  | .AccountReaped i _ => decide (i = id)
  | _ => false

/-- The invariant maintained by every operation, starting from the default
bank: the ED floor and the shape facts inherited from the Rust `HashMap`
and from how users are created. -/
structure Inv (b : Bank) : Prop where
  ed_eq : b.existential_deposit = ED
  rate_nonneg : 0 ≤ b.interest_rate
  bal_keys : keysNodup b.balances
  user_keys : keysNodup b.users
  names_nodup : b.users.Pairwise (fun p q => p.2.username ≠ q.2.username)
  key_name : ∀ p ∈ b.users, p.1.1 = p.2.username
  ed_floor : ∀ p ∈ b.balances, b.existential_deposit ≤ p.2
  bal_cust : ∀ p ∈ b.balances,
    ∃ q ∈ b.users, q.2.id = p.1 ∧ q.2.role = Role.Customer

/-- A bank with one registered Customer "a" (id 1), for concrete instances. -/
def Bcp : Bank := (Bank.default.create_user "a" "p" Role.Customer).2

/-- A bank with one registered Manager "m" (id 1), for concrete instances. -/
def Bmgr : Bank := (Bank.default.create_user "m" "p" Role.Manager).2

/-- A bank with two Customers holding 1000 each, built by running the public
operations from the default state. -/
def Bt1 : Bank :=
  (Bank.run (Bank.run (Bank.run (Bank.run Bank.default
    (Op.create_user "u1" "p1" Role.Customer)).2
    (Op.deposit ("u1", "p1") 1000)).2
    (Op.create_user "u2" "p2" Role.Customer)).2
    (Op.deposit ("u2", "p2") 1000)).2

section ALLemmas

variable {κ β : Type} [DecidableEq κ]

theorem lookupAL_eq_none {k : κ} {l : List (κ × β)} :
    lookupAL k l = none ↔ k ∉ l.map Prod.fst := by
  induction l with
  | nil => simp [lookupAL]
  | cons p rest ih =>
    simp only [lookupAL, List.map_cons, List.mem_cons]
    by_cases h : p.1 = k
    · simp [h]
    · rw [if_neg h, ih]
      constructor
      · intro hk hc
        rcases hc with hc | hc
        · exact h hc.symm
        · exact hk hc
      · intro hk hc
        exact hk (Or.inr hc)

theorem mem_of_lookupAL {k : κ} {v : β} {l : List (κ × β)}
    (h : lookupAL k l = some v) : (k, v) ∈ l := by
  induction l with
  | nil => simp [lookupAL] at h
  | cons p rest ih =>
    simp only [lookupAL] at h
    by_cases hp : p.1 = k
    · rw [if_pos hp] at h
      have hkv : (k, v) = p := by
        obtain ⟨p1, p2⟩ := p
        simp only [Option.some.injEq] at h
        simp_all
      rw [hkv]
      exact List.mem_cons_self _ _
    · rw [if_neg hp] at h
      exact List.mem_cons_of_mem _ (ih h)

theorem lookupAL_ne_none_of_mem {k : κ} {v : β} {l : List (κ × β)}
    (h : (k, v) ∈ l) : lookupAL k l ≠ none := by
  intro hn
  exact (lookupAL_eq_none.mp hn) (List.mem_map_of_mem Prod.fst h)

theorem insertAL_of_not_mem {k : κ} {v : β} {l : List (κ × β)}
    (h : k ∉ l.map Prod.fst) : insertAL k v l = l ++ [(k, v)] := by
  induction l with
  | nil => rfl
  | cons p rest ih =>
    simp only [List.map_cons, List.mem_cons] at h
    push_neg at h
    have hpk : ¬ p.1 = k := fun hp => h.1 hp.symm
    simp only [insertAL, if_neg hpk, List.cons_append, List.cons.injEq, true_and]
    exact ih h.2

theorem mem_insertAL {k : κ} {v : β} {p : κ × β} {l : List (κ × β)}
    (h : p ∈ insertAL k v l) : p = (k, v) ∨ p ∈ l := by
  induction l with
  | nil => simpa [insertAL] using h
  | cons q rest ih =>
    simp only [insertAL] at h
    by_cases hq : q.1 = k
    · rw [if_pos hq] at h
      rcases List.mem_cons.mp h with h | h
      · exact Or.inl h
      · exact Or.inr (List.mem_cons_of_mem _ h)
    · rw [if_neg hq] at h
      rcases List.mem_cons.mp h with h | h
      · exact Or.inr (h ▸ List.mem_cons_self _ _)
      · rcases ih h with h | h
        · exact Or.inl h
        · exact Or.inr (List.mem_cons_of_mem _ h)

theorem mem_insertAL_of_ne {k : κ} {v : β} {p : κ × β} {l : List (κ × β)}
    (hp : p ∈ l) (hk : p.1 ≠ k) : p ∈ insertAL k v l := by
  induction l with
  | nil => simp at hp
  | cons q rest ih =>
    simp only [insertAL]
    rcases List.mem_cons.mp hp with h | h
    · subst h
      rw [if_neg hk]
      exact List.mem_cons_self _ _
    · by_cases hq : q.1 = k
      · rw [if_pos hq]
        exact List.mem_cons_of_mem _ h
      · rw [if_neg hq]
        exact List.mem_cons_of_mem _ (ih h)

theorem lookupAL_insertAL_self {k : κ} {v : β} {l : List (κ × β)} :
    lookupAL k (insertAL k v l) = some v := by
  induction l with
  | nil => simp [insertAL, lookupAL]
  | cons q rest ih =>
    simp only [insertAL]
    by_cases hq : q.1 = k
    · rw [if_pos hq]
      simp [lookupAL]
    · rw [if_neg hq]
      simp only [lookupAL, if_neg hq]
      exact ih

theorem lookupAL_insertAL_ne {k k1 : κ} {v : β} {l : List (κ × β)}
    (h : k1 ≠ k) : lookupAL k1 (insertAL k v l) = lookupAL k1 l := by
  induction l with
  | nil =>
    have h1 : ¬ k = k1 := fun hx => h hx.symm
    simp [insertAL, lookupAL, h1]
  | cons q rest ih =>
    simp only [insertAL]
    by_cases hq : q.1 = k
    · rw [if_pos hq]
      have h1 : ¬ k = k1 := fun hx => h hx.symm
      have h2 : ¬ q.1 = k1 := fun hx => h (hx ▸ hq)
      simp only [lookupAL, if_neg h1, if_neg h2]
    · rw [if_neg hq]
      simp only [lookupAL]
      by_cases hq1 : q.1 = k1
      · rw [if_pos hq1, if_pos hq1]
      · rw [if_neg hq1, if_neg hq1, ih]

theorem keys_insertAL_subset {k : κ} {v : β} {l : List (κ × β)} :
    (insertAL k v l).map Prod.fst ⊆ k :: l.map Prod.fst := by
  intro x hx
  rcases List.mem_map.mp hx with ⟨p, hp, hpx⟩
  rcases mem_insertAL hp with h | h
  · subst h
    exact hpx ▸ List.mem_cons_self _ _
  · exact List.mem_cons_of_mem _ (hpx ▸ List.mem_map_of_mem Prod.fst h)

theorem keysNodup_insertAL {k : κ} {v : β} {l : List (κ × β)}
    (h : keysNodup l) : keysNodup (insertAL k v l) := by
  induction l with
  | nil => simp [insertAL, keysNodup]
  | cons q rest ih =>
    simp only [keysNodup, List.map_cons, List.nodup_cons] at h
    simp only [insertAL]
    by_cases hq : q.1 = k
    · simpa [keysNodup, hq] using h
    · rw [if_neg hq]
      have hrest := ih h.2
      simp only [keysNodup, List.map_cons, List.nodup_cons]
      refine ⟨fun hc => ?_, hrest⟩
      rcases List.mem_cons.mp (keys_insertAL_subset hc) with hc2 | hc2
      · exact hq hc2
      · exact h.1 hc2

theorem removeAL_sublist (k : κ) (l : List (κ × β)) :
    (removeAL k l).Sublist l := by
  induction l with
  | nil => simp [removeAL]
  | cons q rest ih =>
    simp only [removeAL]
    by_cases hq : q.1 = k
    · rw [if_pos hq]
      exact List.sublist_cons_of_sublist q (List.Sublist.refl rest)
    · rw [if_neg hq]
      exact List.Sublist.cons₂ q ih

theorem mem_removeAL {k : κ} {p : κ × β} {l : List (κ × β)}
    (h : p ∈ removeAL k l) : p ∈ l :=
  (removeAL_sublist k l).subset h

theorem keysNodup_removeAL {k : κ} {l : List (κ × β)}
    (h : keysNodup l) : keysNodup (removeAL k l) :=
  List.Nodup.sublist (List.Sublist.map Prod.fst (removeAL_sublist k l)) h

theorem mem_removeAL_of_ne {k : κ} {p : κ × β} {l : List (κ × β)}
    (hp : p ∈ l) (hk : p.1 ≠ k) : p ∈ removeAL k l := by
  induction l with
  | nil => simp at hp
  | cons q rest ih =>
    simp only [removeAL]
    rcases List.mem_cons.mp hp with h | h
    · subst h
      rw [if_neg hk]
      exact List.mem_cons_self _ _
    · by_cases hq : q.1 = k
      · rw [if_pos hq]
        exact h
      · rw [if_neg hq]
        exact List.mem_cons_of_mem _ (ih h)

theorem removeAL_of_none {k : κ} {l : List (κ × β)}
    (h : lookupAL k l = none) : removeAL k l = l := by
  induction l with
  | nil => rfl
  | cons q rest ih =>
    simp only [lookupAL] at h
    by_cases hq : q.1 = k
    · rw [if_pos hq] at h
      simp at h
    · rw [if_neg hq] at h
      simp only [removeAL, if_neg hq, List.cons.injEq, true_and]
      exact ih h

theorem not_mem_keys_removeAL {k : κ} {l : List (κ × β)}
    (h : keysNodup l) : k ∉ (removeAL k l).map Prod.fst := by
  induction l with
  | nil => simp [removeAL]
  | cons q rest ih =>
    simp only [keysNodup, List.map_cons, List.nodup_cons] at h
    simp only [removeAL]
    by_cases hq : q.1 = k
    · rw [if_pos hq]
      exact hq ▸ h.1
    · rw [if_neg hq]
      simp only [List.map_cons, List.mem_cons]
      rintro (hc | hc)
      · exact hq hc.symm
      · exact ih h.2 hc

theorem lookupAL_removeAL_self {k : κ} {l : List (κ × β)}
    (h : keysNodup l) : lookupAL k (removeAL k l) = none :=
  lookupAL_eq_none.mpr (not_mem_keys_removeAL h)

theorem mem_removeAL_or_eq {k : κ} {v : β} {p : κ × β} {l : List (κ × β)}
    (hl : lookupAL k l = some v) (hp : p ∈ l) :
    p ∈ removeAL k l ∨ p = (k, v) := by
  induction l with
  | nil => simp at hp
  | cons q rest ih =>
    simp only [lookupAL] at hl
    simp only [removeAL]
    by_cases hq : q.1 = k
    · rw [if_pos hq] at hl ⊢
      rcases List.mem_cons.mp hp with h | h
      · right
        subst h
        cases p
        simp_all
      · exact Or.inl h
    · rw [if_neg hq] at hl ⊢
      rcases List.mem_cons.mp hp with h | h
      · exact Or.inl (h ▸ List.mem_cons_self _ _)
      · rcases ih hl h with h | h
        · exact Or.inl (List.mem_cons_of_mem _ h)
        · exact Or.inr h

end ALLemmas

theorem taxLoop_events (ed : ℚ) (ts : List (UserId × ℚ × ℚ)) (b : Bank) :
    (taxLoop ed ts b).events = b.events ++ taxEvents ed ts := by
  induction ts generalizing b with
  | nil => simp [taxLoop, taxEvents]
  | cons t rest ih =>
    by_cases h : t.2.1 < ed <;>
      simp [taxLoop, taxEvents, h, ih, List.append_assoc]

theorem taxLoop_users (ed : ℚ) (ts : List (UserId × ℚ × ℚ)) (b : Bank) :
    (taxLoop ed ts b).users = b.users := by
  induction ts generalizing b with
  | nil => simp [taxLoop]
  | cons t rest ih =>
    by_cases h : t.2.1 < ed <;> simp [taxLoop, h, ih]

theorem taxLoop_config (ed : ℚ) (ts : List (UserId × ℚ × ℚ)) (b : Bank) :
    (taxLoop ed ts b).interest_rate = b.interest_rate ∧
    (taxLoop ed ts b).tax_rate = b.tax_rate ∧
    (taxLoop ed ts b).existential_deposit = b.existential_deposit ∧
    (taxLoop ed ts b).user_id_counter = b.user_id_counter := by
  induction ts generalizing b with
  | nil => simp [taxLoop]
  | cons t rest ih =>
    by_cases h : t.2.1 < ed <;> simp [taxLoop, h, ih]

theorem taxLoop_balances_sublist (ed : ℚ) (ts : List (UserId × ℚ × ℚ))
    (b : Bank) : ((taxLoop ed ts b).balances).Sublist b.balances := by
  induction ts generalizing b with
  | nil => simp [taxLoop]
  | cons t rest ih =>
    by_cases h : t.2.1 < ed
    · simp only [taxLoop, if_pos h]
      exact (ih _).trans (removeAL_sublist _ _)
    · simp only [taxLoop, if_neg h]
      exact ih _

theorem taxLoop_lookup_none (ed : ℚ) (ts : List (UserId × ℚ × ℚ)) (b : Bank)
    (id : UserId) (h : lookupAL id b.balances = none) :
    lookupAL id (taxLoop ed ts b).balances = none := by
  have hsub := taxLoop_balances_sublist ed ts b
  rw [lookupAL_eq_none] at h ⊢
  intro hc
  exact h ((hsub.map Prod.fst).subset hc)

theorem taxLoop_reaps (ed : ℚ) (ts : List (UserId × ℚ × ℚ)) (b : Bank)
    (hkeys : keysNodup b.balances) {id : UserId} {nv tx : ℚ}
    (hmem : (id, nv, tx) ∈ ts) (hlt : nv < ed) :
    lookupAL id (taxLoop ed ts b).balances = none := by
  induction ts generalizing b with
  | nil => simp at hmem
  | cons t rest ih =>
    rcases List.mem_cons.mp hmem with heq | hmem2
    · have ht : t.2.1 < ed := by rw [← heq]; exact hlt
      simp only [taxLoop, if_pos ht]
      apply taxLoop_lookup_none
      have : t.1 = id := by rw [← heq]
      rw [this]
      exact lookupAL_removeAL_self hkeys
    · by_cases h : t.2.1 < ed
      · simp only [taxLoop, if_pos h]
        exact ih _ (keysNodup_removeAL hkeys) hmem2
      · simp only [taxLoop, if_neg h]
        exact ih _ hkeys hmem2

theorem taxEvents_countP (ed : ℚ) (id : UserId) (ts : List (UserId × ℚ × ℚ)) :
    (taxEvents ed ts).countP (isReapOf id) =
      ts.countP (fun t => decide (t.1 = id) && decide (t.2.1 < ed)) := by
  induction ts with
  | nil => simp [taxEvents]
  | cons t rest ih =>
    by_cases h1 : t.2.1 < ed <;> by_cases h2 : t.1 = id <;>
      simp [taxEvents, List.countP_cons, List.countP_append, isReapOf,
        h1, h2, ih]

theorem mem_taxEvents (ed : ℚ) {id : UserId} {nv tx : ℚ}
    {ts : List (UserId × ℚ × ℚ)} (hmem : (id, nv, tx) ∈ ts) (hlt : nv < ed) :
    Event.AccountReaped id nv ∈ taxEvents ed ts := by
  induction ts with
  | nil => simp at hmem
  | cons t rest ih =>
    rcases List.mem_cons.mp hmem with heq | hmem2
    · have ht : t.2.1 < ed := by rw [← heq]; exact hlt
      simp only [taxEvents, if_pos ht]
      rw [← heq]
      simp
    · simp only [taxEvents]
      by_cases h : t.2.1 < ed <;> simp [h, ih hmem2]

theorem countP_keys_once {β : Type} {l : List (ℕ × β)} (hkeys : keysNodup l)
    {id : ℕ} {v : β} (hmem : (id, v) ∈ l) (p : ℕ × β → Bool)
    (hp : p (id, v) = true) (hother : ∀ q : ℕ × β, q.1 ≠ id → p q = false) :
    l.countP p = 1 := by
  induction l with
  | nil => simp at hmem
  | cons q rest ih =>
    simp only [keysNodup, List.map_cons, List.nodup_cons] at hkeys
    by_cases hq : q.1 = id
    · have hqv : q = (id, v) := by
        rcases List.mem_cons.mp hmem with h | h
        · exact h.symm
        · exact absurd (hq ▸ List.mem_map_of_mem Prod.fst h) hkeys.1
      have hzero : rest.countP p = 0 := by
        apply List.countP_eq_zero.mpr
        intro r hr
        simp only [Bool.not_eq_true]
        apply hother
        intro hc
        exact hkeys.1 (hq ▸ hc ▸ List.mem_map_of_mem Prod.fst hr)
      rw [List.countP_cons, hzero, hqv, hp]
      simp
    · have hmem2 : (id, v) ∈ rest := by
        rcases List.mem_cons.mp hmem with h | h
        · exact absurd (congrArg Prod.fst h.symm) hq
        · exact h
      rw [List.countP_cons, ih hkeys.2 hmem2, hother q hq]
      simp

theorem inv_default : Inv Bank.default := by
  constructor <;> norm_num [Bank.default, INTEREST_RATE, keysNodup]

theorem assert_role_ok {b : Bank} {c : HashResult} {r : Role} {id : UserId}
    (h : b.assert_role c r = .ok id) :
    ∃ u, lookupAL c b.users = some u ∧ u.role = r ∧ u.id = id := by
  unfold Bank.assert_role at h
  split at h
  next u hc =>
    by_cases hu : u.role = r
    · rw [if_pos hu] at h
      exact ⟨u, hc, hu, by simpa using h⟩
    · rw [if_neg hu] at h
      simp at h
  next hc => simp at h

theorem has_username_false {b : Bank} {un : String}
    (h : ¬ b.has_username un = true) : ∀ p ∈ b.users, p.2.username ≠ un := by
  intro p hp he
  apply h
  simp only [Bank.has_username, List.any_eq_true, decide_eq_true_eq]
  exact ⟨p, hp, he⟩

theorem removeAL_username_ne {cred : HashResult} {u : User}
    {l : List (HashResult × User)}
    (hnames : l.Pairwise (fun p q => p.2.username ≠ q.2.username))
    (hl : lookupAL cred l = some u) :
    ∀ p ∈ removeAL cred l, p.2.username ≠ u.username := by
  induction l with
  | nil => simp [removeAL]
  | cons q rest ih =>
    simp only [lookupAL] at hl
    simp only [removeAL]
    rcases List.pairwise_cons.mp hnames with ⟨hq, hrest⟩
    by_cases hc : q.1 = cred
    · rw [if_pos hc]
      rw [if_pos hc] at hl
      have hu : q.2 = u := by simpa using hl
      intro p hp
      exact (hu ▸ hq p hp).symm
    · rw [if_neg hc]
      rw [if_neg hc] at hl
      intro p hp
      rcases List.mem_cons.mp hp with hp2 | hp2
      · subst hp2
        exact hq (cred, u) (mem_of_lookupAL hl)
      · exact ih hrest hl p hp2

theorem inv_create_user {b : Bank} (h : Inv b) (un pw : String) (r : Role) :
    Inv (b.create_user un pw r).2 := by
  unfold Bank.create_user
  by_cases hu : b.has_username un = true
  · simp only [hu, if_true]
    exact h
  · simp only [hu, if_false, Bool.false_eq_true]
    have hfresh2 := has_username_false hu
    have hfresh : Bank.hash un pw ∉ b.users.map Prod.fst := by
      intro hc
      rcases List.mem_map.mp hc with ⟨p, hp, hpk⟩
      have h1 : p.1.1 = p.2.username := h.key_name p hp
      have h2 : p.1.1 = un := by rw [hpk]; rfl
      exact hfresh2 p hp (h1 ▸ h2)
    rw [insertAL_of_not_mem hfresh]
    constructor
    · exact h.ed_eq
    · exact h.rate_nonneg
    · exact h.bal_keys
    · show ((b.users ++ _).map Prod.fst).Nodup
      rw [List.map_append, List.nodup_append]
      refine ⟨h.user_keys, by simp, ?_⟩
      intro x hx
      simp only [List.map_cons, List.map_nil, List.mem_singleton]
      intro hxk
      exact hfresh (hxk ▸ hx)
    · rw [List.pairwise_append]
      refine ⟨h.names_nodup, by simp, ?_⟩
      intro p hp q hq
      simp only [List.mem_singleton] at hq
      subst hq
      exact hfresh2 p hp
    · intro p hp
      rcases List.mem_append.mp hp with hp2 | hp2
      · exact h.key_name p hp2
      · simp only [List.mem_singleton] at hp2
        subst hp2
        rfl
    · exact h.ed_floor
    · intro p hp
      rcases h.bal_cust p hp with ⟨q, hq, hqp⟩
      exact ⟨q, List.mem_append_left _ hq, hqp⟩

theorem inv_change_password {b : Bank} (h : Inv b) (c : HashResult)
    (npw : String) : Inv (b.change_password c npw).2 := by
  unfold Bank.change_password
  cases hc : lookupAL c b.users with
  | none =>
    simp only
    rw [removeAL_of_none hc]
    exact h
  | some u =>
    simp only
    have hrm_names : ∀ p ∈ removeAL c b.users, p.2.username ≠ u.username :=
      removeAL_username_ne h.names_nodup hc
    have hfresh : Bank.hash u.username npw ∉ (removeAL c b.users).map Prod.fst := by
      intro hx
      rcases List.mem_map.mp hx with ⟨p, hp, hpk⟩
      have h1 : p.1.1 = p.2.username := h.key_name p (mem_removeAL hp)
      have h2 : p.1.1 = u.username := by rw [hpk]; rfl
      exact hrm_names p hp (h1 ▸ h2)
    rw [insertAL_of_not_mem hfresh]
    have hremsub := removeAL_sublist c b.users
    constructor
    · exact h.ed_eq
    · exact h.rate_nonneg
    · exact h.bal_keys
    · show (((removeAL c b.users) ++ _).map Prod.fst).Nodup
      rw [List.map_append, List.nodup_append]
      refine ⟨keysNodup_removeAL h.user_keys, by simp, ?_⟩
      intro x hx
      simp only [List.map_cons, List.map_nil, List.mem_singleton]
      intro hxk
      exact hfresh (hxk ▸ hx)
    · rw [List.pairwise_append]
      refine ⟨h.names_nodup.sublist hremsub, by simp, ?_⟩
      intro p hp q hq
      simp only [List.mem_singleton] at hq
      subst hq
      exact hrm_names p hp
    · intro p hp
      rcases List.mem_append.mp hp with hp2 | hp2
      · exact h.key_name p (mem_removeAL hp2)
      · simp only [List.mem_singleton] at hp2
        subst hp2
        rfl
    · exact h.ed_floor
    · intro p hp
      rcases h.bal_cust p hp with ⟨q, hq, hqid, hqrole⟩
      rcases mem_removeAL_or_eq hc hq with hq2 | hq2
      · exact ⟨q, List.mem_append_left _ hq2, hqid, hqrole⟩
      · refine ⟨(Bank.hash u.username npw, u), List.mem_append_right _ (by simp), ?_, ?_⟩
        · have : q.2 = u := by rw [hq2]
          rw [← this]; exact hqid
        · have : q.2 = u := by rw [hq2]
          rw [← this]; exact hqrole

theorem ED_le_FMAX : ED ≤ FMAX := by
  norm_num [ED, FMAX]

theorem interestedBalance_ge {rate v : ℚ} (hr : 0 ≤ rate) (hv : ED ≤ v) :
    ED ≤ interestedBalance rate v := by
  unfold interestedBalance
  split
  · exact ED_le_FMAX
  · have hv0 : (0 : ℚ) ≤ v := le_trans (by norm_num [ED]) hv
    have := le_mul_of_one_le_right hv0 (by linarith : (1 : ℚ) ≤ 1 + rate)
    linarith

theorem keys_map_eq {κ β γ : Type} (g : κ × β → γ) (l : List (κ × β)) :
    (l.map (fun p => (p.1, g p))).map Prod.fst = l.map Prod.fst := by
  induction l with
  | nil => rfl
  | cons p rest ih => simp [ih]

theorem inv_deposit {b : Bank} (h : Inv b) (c : HashResult) (a : Balance) :
    Inv (b.deposit c a).2 := by
  unfold Bank.deposit
  by_cases ha : a ≤ 0
  · rw [if_pos ha]; exact h
  · rw [if_neg ha]
    push_neg at ha
    cases hr : b.assert_role c Role.Customer with
    | error e => exact h
    | ok id =>
      dsimp only
      rcases assert_role_ok hr with ⟨u, hcu, hurole, huid⟩
      cases hb : lookupAL id b.balances with
      | some bal =>
        dsimp only
        refine ⟨h.ed_eq, h.rate_nonneg, keysNodup_insertAL h.bal_keys,
          h.user_keys, h.names_nodup, h.key_name, ?_, ?_⟩
        · intro p hp
          rcases mem_insertAL hp with hp2 | hp2
          · subst hp2
            have := h.ed_floor (id, bal) (mem_of_lookupAL hb)
            show b.existential_deposit ≤ bal + a
            simp only at this
            linarith
          · exact h.ed_floor p hp2
        · intro p hp
          rcases mem_insertAL hp with hp2 | hp2
          · subst hp2
            exact ⟨(c, u), mem_of_lookupAL hcu, huid, hurole⟩
          · exact h.bal_cust p hp2
      | none =>
        dsimp only
        by_cases hlt : a < b.existential_deposit
        · rw [if_pos hlt]; exact h
        · rw [if_neg hlt]
          push_neg at hlt
          refine ⟨h.ed_eq, h.rate_nonneg, keysNodup_insertAL h.bal_keys,
            h.user_keys, h.names_nodup, h.key_name, ?_, ?_⟩
          · intro p hp
            rcases mem_insertAL hp with hp2 | hp2
            · subst hp2; exact hlt
            · exact h.ed_floor p hp2
          · intro p hp
            rcases mem_insertAL hp with hp2 | hp2
            · subst hp2
              exact ⟨(c, u), mem_of_lookupAL hcu, huid, hurole⟩
            · exact h.bal_cust p hp2

theorem inv_withdraw {b : Bank} (h : Inv b) (c : HashResult) (a : Balance) :
    Inv (b.withdraw c a).2 := by
  unfold Bank.withdraw
  by_cases ha : a ≤ 0
  · rw [if_pos ha]; exact h
  · rw [if_neg ha]
    cases hr : b.assert_role c Role.Customer with
    | error e => exact h
    | ok id =>
      dsimp only
      rcases assert_role_ok hr with ⟨u, hcu, hurole, huid⟩
      cases hb : lookupAL id b.balances with
      | none => exact h
      | some bal =>
        dsimp only
        by_cases hab : a ≤ bal
        · rw [if_pos hab]
          by_cases hed : b.existential_deposit ≤ bal - a
          · rw [if_pos hed]
            refine ⟨h.ed_eq, h.rate_nonneg, keysNodup_insertAL h.bal_keys,
              h.user_keys, h.names_nodup, h.key_name, ?_, ?_⟩
            · intro p hp
              rcases mem_insertAL hp with hp2 | hp2
              · subst hp2; exact hed
              · exact h.ed_floor p hp2
            · intro p hp
              rcases mem_insertAL hp with hp2 | hp2
              · subst hp2
                exact ⟨(c, u), mem_of_lookupAL hcu, huid, hurole⟩
              · exact h.bal_cust p hp2
          · rw [if_neg hed]
            refine ⟨h.ed_eq, h.rate_nonneg, keysNodup_removeAL h.bal_keys,
              h.user_keys, h.names_nodup, h.key_name, ?_, ?_⟩
            · intro p hp
              exact h.ed_floor p (mem_removeAL hp)
            · intro p hp
              exact h.bal_cust p (mem_removeAL hp)
        · rw [if_neg hab]; exact h

theorem inv_transfer {b : Bank} (h : Inv b) (c : HashResult) (a : Balance)
    (t : UserId) : Inv (b.transfer c a t).2 := by
  unfold Bank.transfer
  cases hr : b.assert_role c Role.Customer with
  | error e => exact h
  | ok id =>
    dsimp only
    rcases assert_role_ok hr with ⟨u, hcu, hurole, huid⟩
    by_cases hit : id = t
    · rw [if_pos hit]; exact h
    · rw [if_neg hit]
      by_cases ha : a ≤ 0
      · rw [if_pos ha]; exact h
      · rw [if_neg ha]
        push_neg at ha
        by_cases haed : a < b.existential_deposit
        · rw [if_pos haed]; exact h
        · rw [if_neg haed]
          push_neg at haed
          cases hf : b.users.find? (fun p =>
              decide (p.2.id = t ∧ p.2.role = Role.Customer)) with
          | none => exact h
          | some q =>
            dsimp only
            have hqmem : q ∈ b.users := List.mem_of_find?_eq_some hf
            have hqpred := List.find?_some hf
            rw [decide_eq_true_eq] at hqpred
            cases hb : lookupAL id b.balances with
            | none => exact h
            | some bal =>
              dsimp only
              by_cases hab : a ≤ bal
              · rw [if_pos hab]
                have hcredit : b.existential_deposit ≤
                    (lookupAL t b.balances).getD 0 + a := by
                  cases hv : lookupAL t b.balances with
                  | some tb =>
                    have := h.ed_floor (t, tb) (mem_of_lookupAL hv)
                    simp only at this
                    simp only [Option.getD_some]
                    linarith
                  | none =>
                    simp only [Option.getD_none]
                    linarith
                by_cases hed : b.existential_deposit ≤ bal - a
                · rw [if_pos hed]
                  refine ⟨h.ed_eq, h.rate_nonneg,
                    keysNodup_insertAL (keysNodup_insertAL h.bal_keys),
                    h.user_keys, h.names_nodup, h.key_name, ?_, ?_⟩
                  · intro p hp
                    rcases mem_insertAL hp with hp2 | hp2
                    · subst hp2; exact hcredit
                    · rcases mem_insertAL hp2 with hp3 | hp3
                      · subst hp3; exact hed
                      · exact h.ed_floor p hp3
                  · intro p hp
                    rcases mem_insertAL hp with hp2 | hp2
                    · subst hp2
                      exact ⟨q, hqmem, hqpred.1, hqpred.2⟩
                    · rcases mem_insertAL hp2 with hp3 | hp3
                      · subst hp3
                        exact ⟨(c, u), mem_of_lookupAL hcu, huid, hurole⟩
                      · exact h.bal_cust p hp3
                · rw [if_neg hed]
                  refine ⟨h.ed_eq, h.rate_nonneg,
                    keysNodup_insertAL (keysNodup_removeAL h.bal_keys),
                    h.user_keys, h.names_nodup, h.key_name, ?_, ?_⟩
                  · intro p hp
                    rcases mem_insertAL hp with hp2 | hp2
                    · subst hp2; exact hcredit
                    · exact h.ed_floor p (mem_removeAL hp2)
                  · intro p hp
                    rcases mem_insertAL hp with hp2 | hp2
                    · subst hp2
                      exact ⟨q, hqmem, hqpred.1, hqpred.2⟩
                    · exact h.bal_cust p (mem_removeAL hp2)
              · rw [if_neg hab]; exact h

theorem inv_set_interest_rate {b : Bank} (h : Inv b) (c : HashResult)
    (rate : ℚ) : Inv (b.set_interest_rate c rate).2 := by
  unfold Bank.set_interest_rate
  by_cases hrate : rate < 0
  · rw [if_pos hrate]; exact h
  · rw [if_neg hrate]
    push_neg at hrate
    cases hc : lookupAL c b.users with
    | none => exact h
    | some u =>
      dsimp only
      by_cases hu : u.role = Role.Manager
      · rw [if_pos hu]
        exact ⟨h.ed_eq, hrate, h.bal_keys, h.user_keys, h.names_nodup,
          h.key_name, h.ed_floor, h.bal_cust⟩
      · rw [if_neg hu]; exact h

theorem inv_set_tax_rate {b : Bank} (h : Inv b) (c : HashResult)
    (rate : ℚ) : Inv (b.set_tax_rate c rate).2 := by
  unfold Bank.set_tax_rate
  by_cases hrate : ¬ (0 ≤ rate ∧ rate ≤ 1)
  · rw [if_pos hrate]; exact h
  · rw [if_neg hrate]
    cases hc : lookupAL c b.users with
    | none => exact h
    | some u =>
      dsimp only
      by_cases hu : u.role = Role.Auditor
      · rw [if_pos hu]
        exact ⟨h.ed_eq, h.rate_nonneg, h.bal_keys, h.user_keys, h.names_nodup,
          h.key_name, h.ed_floor, h.bal_cust⟩
      · rw [if_neg hu]; exact h

theorem inv_pay_interest {b : Bank} (h : Inv b) (c : HashResult) :
    Inv (b.pay_interest c).2 := by
  unfold Bank.pay_interest
  cases hc : lookupAL c b.users with
  | none => exact h
  | some u =>
    dsimp only
    by_cases hu : u.role = Role.Manager
    · rw [if_pos hu]
      refine ⟨h.ed_eq, h.rate_nonneg, ?_, h.user_keys, h.names_nodup,
        h.key_name, ?_, ?_⟩
      · show keysNodup (b.balances.map
          (fun p => (p.1, interestedBalance b.interest_rate p.2)))
        unfold keysNodup
        rw [keys_map_eq (fun p => interestedBalance b.interest_rate p.2)]
        exact h.bal_keys
      · intro p hp
        rcases List.mem_map.mp hp with ⟨q, hq, hqp⟩
        have hfloor := h.ed_floor q hq
        rw [h.ed_eq] at hfloor
        have hge : ED ≤ interestedBalance b.interest_rate q.2 :=
          interestedBalance_ge h.rate_nonneg hfloor
        show b.existential_deposit ≤ p.2
        rw [h.ed_eq, ← hqp]
        exact hge
      · intro p hp
        rcases List.mem_map.mp hp with ⟨q, hq, hqp⟩
        rcases h.bal_cust q hq with ⟨w, hw, hwid, hwrole⟩
        refine ⟨w, hw, ?_, hwrole⟩
        rw [← hqp]
        exact hwid
    · rw [if_neg hu]; exact h

theorem inv_take_tax {b : Bank} (h : Inv b) (c : HashResult) :
    Inv (b.take_tax c).2 := by
  unfold Bank.take_tax
  cases hc : lookupAL c b.users with
  | none => exact h
  | some u =>
    dsimp only
    by_cases hu : u.role = Role.Auditor
    · rw [if_pos hu]
      dsimp only
      set rate := b.tax_rate with hrate
      set ed := b.existential_deposit with hed
      set b1 : Bank :=
        { b with balances := b.balances.map (fun p => (p.1, p.2 * (1 - rate))) }
        with hb1
      set ts := taxTriples rate b.balances with hts
      have hb1keys : keysNodup b1.balances := by
        show keysNodup (b.balances.map (fun p => (p.1, p.2 * (1 - rate))))
        unfold keysNodup
        rw [keys_map_eq (fun p => p.2 * (1 - rate))]
        exact h.bal_keys
      have hsub := taxLoop_balances_sublist ed ts b1
      have husers := taxLoop_users ed ts b1
      have hcfg := taxLoop_config ed ts b1
      refine ⟨?_, ?_, ?_, ?_, ?_, ?_, ?_, ?_⟩
      · rw [hcfg.2.2.1]; exact h.ed_eq
      · rw [hcfg.1]; exact h.rate_nonneg
      · exact List.Nodup.sublist (hsub.map Prod.fst) hb1keys
      · rw [husers]; exact h.user_keys
      · rw [husers]; exact h.names_nodup
      · rw [husers]; exact h.key_name
      · intro p hp
        rw [hcfg.2.2.1]
        show b.existential_deposit ≤ p.2
        by_contra hlt
        push_neg at hlt
        have hp1 : p ∈ b1.balances := hsub.subset hp
        rcases List.mem_map.mp hp1 with ⟨q, hq, hqp⟩
        have htr : (q.1, q.2 * (1 - rate), q.2 * rate) ∈ ts :=
          List.mem_map_of_mem _ hq
        have hnv : q.2 * (1 - rate) < ed := by
          have : p.2 = q.2 * (1 - rate) := by rw [← hqp]
          rw [← this]
          exact hlt
        have hnone := taxLoop_reaps ed ts b1 hb1keys htr hnv
        have hpk : p.1 = q.1 := by rw [← hqp]
        have hmem2 : (q.1, p.2) ∈ (taxLoop ed ts b1).balances := by
          have : p = (q.1, p.2) := by
            rw [← hpk]
          rw [← this]
          exact hp
        exact lookupAL_ne_none_of_mem hmem2 hnone
      · intro p hp
        have hp1 : p ∈ b1.balances := hsub.subset hp
        rcases List.mem_map.mp hp1 with ⟨q, hq, hqp⟩
        rcases h.bal_cust q hq with ⟨w, hw, hwid, hwrole⟩
        refine ⟨w, husers ▸ hw, ?_, hwrole⟩
        rw [← hqp]
        exact hwid
    · rw [if_neg hu]; exact h

theorem inv_run {b : Bank} (h : Inv b) (op : Op) : Inv (Bank.run b op).2 := by
  cases op with
  | create_user un pw r => exact inv_create_user h un pw r
  | login un pw => exact h
  | change_password c npw => exact inv_change_password h c npw
  | report c => exact h
  | deposit c a => exact inv_deposit h c a
  | withdraw c a => exact inv_withdraw h c a
  | transfer c a t => exact inv_transfer h c a t
  | check_balance c => exact h
  | set_interest_rate c r => exact inv_set_interest_rate h c r
  | set_tax_rate c r => exact inv_set_tax_rate h c r
  | pay_interest c => exact inv_pay_interest h c
  | take_tax c => exact inv_take_tax h c
  | print_event c => exact h
  | print_a_user_event c r uid => exact h
  | print_all_events c r => exact h

theorem reachable_inv {b : Bank} (h : Reachable b) : Inv b := by
  induction h with
  | base => exact inv_default
  | step b op hb ih => exact inv_run ih op

theorem create_user_step (b : Bank) (un pw : String) (r : Role) :
    (∀ e, (b.create_user un pw r).1 = some e → (b.create_user un pw r).2 = b) ∧
    (∃ t, (b.create_user un pw r).2.events = b.events ++ t) := by
  unfold Bank.create_user
  by_cases hu : b.has_username un = true
  · rw [if_pos hu]
    exact ⟨fun e he => rfl, ⟨[], by simp⟩⟩
  · rw [if_neg hu]
    exact ⟨fun e he => by simp at he, ⟨[], by simp⟩⟩

theorem change_password_step (b : Bank) (c : HashResult) (npw : String) :
    (∀ e, (b.change_password c npw).1 = some e →
      (b.change_password c npw).2 = b) ∧
    (∃ t, (b.change_password c npw).2.events = b.events ++ t) := by
  unfold Bank.change_password
  cases hc : lookupAL c b.users with
  | none =>
    dsimp only
    constructor
    · intro e he
      rw [removeAL_of_none hc]
    · exact ⟨[], by simp⟩
  | some u =>
    dsimp only
    exact ⟨fun e he => by simp at he, ⟨[], by simp⟩⟩

theorem deposit_step (b : Bank) (c : HashResult) (a : Balance) :
    (∀ e, (b.deposit c a).1 = some e → (b.deposit c a).2 = b) ∧
    (∃ t, (b.deposit c a).2.events = b.events ++ t) := by
  unfold Bank.deposit
  by_cases ha : a ≤ 0
  · rw [if_pos ha]
    exact ⟨fun e he => rfl, ⟨[], by simp⟩⟩
  · rw [if_neg ha]
    cases hr : b.assert_role c Role.Customer with
    | error e2 => exact ⟨fun e he => rfl, ⟨[], by simp⟩⟩
    | ok id =>
      dsimp only
      cases hb : lookupAL id b.balances with
      | some bal =>
        dsimp only
        exact ⟨fun e he => by simp at he, ⟨[Event.Deposit id a], rfl⟩⟩
      | none =>
        dsimp only
        by_cases hlt : a < b.existential_deposit
        · rw [if_pos hlt]
          exact ⟨fun e he => rfl, ⟨[], by simp⟩⟩
        · rw [if_neg hlt]
          exact ⟨fun e he => by simp at he, ⟨[Event.Deposit id a], rfl⟩⟩

theorem withdraw_step (b : Bank) (c : HashResult) (a : Balance) :
    (∀ e, (b.withdraw c a).1 = some e → (b.withdraw c a).2 = b) ∧
    (∃ t, (b.withdraw c a).2.events = b.events ++ t) := by
  unfold Bank.withdraw
  by_cases ha : a ≤ 0
  · rw [if_pos ha]
    exact ⟨fun e he => rfl, ⟨[], by simp⟩⟩
  · rw [if_neg ha]
    cases hr : b.assert_role c Role.Customer with
    | error e2 => exact ⟨fun e he => rfl, ⟨[], by simp⟩⟩
    | ok id =>
      dsimp only
      cases hb : lookupAL id b.balances with
      | none => exact ⟨fun e he => rfl, ⟨[], by simp⟩⟩
      | some bal =>
        dsimp only
        by_cases hab : a ≤ bal
        · rw [if_pos hab]
          by_cases hed : b.existential_deposit ≤ bal - a
          · rw [if_pos hed]
            exact ⟨fun e he => by simp at he, ⟨[Event.Withdrawal id a], rfl⟩⟩
          · rw [if_neg hed]
            exact ⟨fun e he => by simp at he, ⟨_, List.append_assoc _ _ _⟩⟩
        · rw [if_neg hab]
          exact ⟨fun e he => rfl, ⟨[], by simp⟩⟩

theorem transfer_step (b : Bank) (c : HashResult) (a : Balance) (t : UserId) :
    (∀ e, (b.transfer c a t).1 = some e → (b.transfer c a t).2 = b) ∧
    (∃ s, (b.transfer c a t).2.events = b.events ++ s) := by
  unfold Bank.transfer
  cases hr : b.assert_role c Role.Customer with
  | error e2 => exact ⟨fun e he => rfl, ⟨[], by simp⟩⟩
  | ok id =>
    dsimp only
    by_cases hit : id = t
    · rw [if_pos hit]
      exact ⟨fun e he => by simp at he, ⟨[], by simp⟩⟩
    · rw [if_neg hit]
      by_cases ha : a ≤ 0
      · rw [if_pos ha]
        exact ⟨fun e he => rfl, ⟨[], by simp⟩⟩
      · rw [if_neg ha]
        by_cases haed : a < b.existential_deposit
        · rw [if_pos haed]
          exact ⟨fun e he => rfl, ⟨[], by simp⟩⟩
        · rw [if_neg haed]
          cases hf : b.users.find? (fun p =>
              decide (p.2.id = t ∧ p.2.role = Role.Customer)) with
          | none => exact ⟨fun e he => rfl, ⟨[], by simp⟩⟩
          | some q =>
            dsimp only
            cases hb : lookupAL id b.balances with
            | none => exact ⟨fun e he => rfl, ⟨[], by simp⟩⟩
            | some bal =>
              dsimp only
              by_cases hab : a ≤ bal
              · rw [if_pos hab]
                by_cases hed : b.existential_deposit ≤ bal - a
                · rw [if_pos hed]
                  exact ⟨fun e he => by simp at he,
                    ⟨[Event.Transfer id t a], rfl⟩⟩
                · rw [if_neg hed]
                  exact ⟨fun e he => by simp at he,
                    ⟨_, List.append_assoc _ _ _⟩⟩
              · rw [if_neg hab]
                exact ⟨fun e he => rfl, ⟨[], by simp⟩⟩

theorem set_interest_rate_step (b : Bank) (c : HashResult) (rate : ℚ) :
    (∀ e, (b.set_interest_rate c rate).1 = some e →
      (b.set_interest_rate c rate).2 = b) ∧
    (∃ t, (b.set_interest_rate c rate).2.events = b.events ++ t) := by
  unfold Bank.set_interest_rate
  by_cases hrate : rate < 0
  · rw [if_pos hrate]
    exact ⟨fun e he => rfl, ⟨[], by simp⟩⟩
  · rw [if_neg hrate]
    cases hc : lookupAL c b.users with
    | none => exact ⟨fun e he => rfl, ⟨[], by simp⟩⟩
    | some u =>
      dsimp only
      by_cases hu : u.role = Role.Manager
      · rw [if_pos hu]
        exact ⟨fun e he => by simp at he, ⟨[Event.InterestRate u.id rate], rfl⟩⟩
      · rw [if_neg hu]
        exact ⟨fun e he => rfl, ⟨[], by simp⟩⟩

theorem set_tax_rate_step (b : Bank) (c : HashResult) (rate : ℚ) :
    (∀ e, (b.set_tax_rate c rate).1 = some e →
      (b.set_tax_rate c rate).2 = b) ∧
    (∃ t, (b.set_tax_rate c rate).2.events = b.events ++ t) := by
  unfold Bank.set_tax_rate
  by_cases hrate : ¬ (0 ≤ rate ∧ rate ≤ 1)
  · rw [if_pos hrate]
    exact ⟨fun e he => rfl, ⟨[], by simp⟩⟩
  · rw [if_neg hrate]
    cases hc : lookupAL c b.users with
    | none => exact ⟨fun e he => rfl, ⟨[], by simp⟩⟩
    | some u =>
      dsimp only
      by_cases hu : u.role = Role.Auditor
      · rw [if_pos hu]
        exact ⟨fun e he => by simp at he, ⟨[Event.TaxRate u.id rate], rfl⟩⟩
      · rw [if_neg hu]
        exact ⟨fun e he => rfl, ⟨[], by simp⟩⟩

theorem pay_interest_step (b : Bank) (c : HashResult) :
    (∀ e, (b.pay_interest c).1 = some e → (b.pay_interest c).2 = b) ∧
    (∃ t, (b.pay_interest c).2.events = b.events ++ t) := by
  unfold Bank.pay_interest
  cases hc : lookupAL c b.users with
  | none => exact ⟨fun e he => rfl, ⟨[], by simp⟩⟩
  | some u =>
    dsimp only
    by_cases hu : u.role = Role.Manager
    · rw [if_pos hu]
      exact ⟨fun e he => by simp at he,
        ⟨b.balances.map (fun p =>
          Event.Interest p.1 (interestedBalance b.interest_rate p.2 - p.2)), rfl⟩⟩
    · rw [if_neg hu]
      exact ⟨fun e he => rfl, ⟨[], by simp⟩⟩

theorem take_tax_step (b : Bank) (c : HashResult) :
    (∀ e, (b.take_tax c).1 = some e → (b.take_tax c).2 = b) ∧
    (∃ t, (b.take_tax c).2.events = b.events ++ t) := by
  unfold Bank.take_tax
  cases hc : lookupAL c b.users with
  | none => exact ⟨fun e he => rfl, ⟨[], by simp⟩⟩
  | some u =>
    dsimp only
    by_cases hu : u.role = Role.Auditor
    · rw [if_pos hu]
      dsimp only
      refine ⟨fun e he => by simp at he,
        ⟨taxEvents b.existential_deposit (taxTriples b.tax_rate b.balances), ?_⟩⟩
      rw [taxLoop_events]
    · rw [if_neg hu]
      exact ⟨fun e he => rfl, ⟨[], by simp⟩⟩

theorem run_err_eq {b : Bank} {op : Op} {e : BankingError}
    (h : (Bank.run b op).1 = some e) : (Bank.run b op).2 = b := by
  cases op with
  | create_user un pw r => exact (create_user_step b un pw r).1 e h
  | login un pw => rfl
  | change_password c npw => exact (change_password_step b c npw).1 e h
  | report c => rfl
  | deposit c a => exact (deposit_step b c a).1 e h
  | withdraw c a => exact (withdraw_step b c a).1 e h
  | transfer c a t => exact (transfer_step b c a t).1 e h
  | check_balance c => rfl
  | set_interest_rate c r => exact (set_interest_rate_step b c r).1 e h
  | set_tax_rate c r => exact (set_tax_rate_step b c r).1 e h
  | pay_interest c => exact (pay_interest_step b c).1 e h
  | take_tax c => exact (take_tax_step b c).1 e h
  | print_event c => rfl
  | print_a_user_event c r uid => rfl
  | print_all_events c r => rfl

theorem run_events (b : Bank) (op : Op) :
    ∃ t, (Bank.run b op).2.events = b.events ++ t := by
  cases op with
  | create_user un pw r => exact (create_user_step b un pw r).2
  | login un pw => exact ⟨[], (List.append_nil _).symm⟩
  | change_password c npw => exact (change_password_step b c npw).2
  | report c => exact ⟨[], (List.append_nil _).symm⟩
  | deposit c a => exact (deposit_step b c a).2
  | withdraw c a => exact (withdraw_step b c a).2
  | transfer c a t => exact (transfer_step b c a t).2
  | check_balance c => exact ⟨[], (List.append_nil _).symm⟩
  | set_interest_rate c r => exact (set_interest_rate_step b c r).2
  | set_tax_rate c r => exact (set_tax_rate_step b c r).2
  | pay_interest c => exact (pay_interest_step b c).2
  | take_tax c => exact (take_tax_step b c).2
  | print_event c => exact ⟨[], (List.append_nil _).symm⟩
  | print_a_user_event c r uid => exact ⟨[], (List.append_nil _).symm⟩
  | print_all_events c r => exact ⟨[], (List.append_nil _).symm⟩

theorem reachable_Bt1 : Reachable Bt1 :=
  Reachable.step _ _ (Reachable.step _ _ (Reachable.step _ _
    (Reachable.step _ _ Reachable.base)))

/-- C2: Atomicity on error — whenever any public Bank operation returns an
error, the entire resulting bank state (users, balances, events, rates,
existential deposit and id counter) equals the starting state. -/
theorem C2_atomicity_on_error (b : Bank) (op : Op) (e : BankingError)
    (h : (Bank.run b op).1 = some e) : (Bank.run b op).2 = b :=
  run_err_eq h

theorem C2_witness :
    (Bank.run Bank.default (Op.deposit ("x", "y") 10)).2 = Bank.default :=
  C2_atomicity_on_error Bank.default (Op.deposit ("x", "y") 10)
    BankingError.NoUserFound (by decide)

/-- C3: Event log is append-only — across every operation the old event list
is a prefix of the new one (so no event is edited or removed and the length
is non-decreasing), and a failed operation leaves it exactly unchanged. -/
theorem C3_event_log_append_only (b : Bank) (op : Op) :
    (∃ t, (Bank.run b op).2.events = b.events ++ t) ∧
    (∀ e, (Bank.run b op).1 = some e →
      (Bank.run b op).2.events = b.events) :=
  ⟨run_events b op, fun _ he => by rw [run_err_eq he]⟩

theorem C3_witness :
    (Bank.run Bank.default (Op.withdraw ("x", "y") 10)).2.events =
      Bank.default.events :=
  (C3_event_log_append_only Bank.default (Op.withdraw ("x", "y") 10)).2
    BankingError.NoUserFound (by decide)

/-- C9: Balances belong to Customers only — in every state reachable from the
default bank, every key of the balance store is the id of a directory user
whose role is Customer. -/
theorem C9_balances_customers_only (b : Bank) (h : Reachable b) :
    ∀ p ∈ b.balances,
      ∃ q ∈ b.users, q.2.id = p.1 ∧ q.2.role = Role.Customer :=
  (reachable_inv h).bal_cust

theorem C9_witness :
    ∃ q ∈ Bt1.users, q.2.id = (1 : UserId) ∧ q.2.role = Role.Customer :=
  C9_balances_customers_only Bt1 reachable_Bt1 (1, 1000) (by decide)

/-- C10: change_password frame — a successful password change returns Ok,
stores the unchanged user record (same id, username and role) under the
credential derived from the existing username and the new password, appends
no event, and leaves balances, events, both rates, the existential deposit
and the user id counter unchanged. -/
theorem C10_change_password_frame (b : Bank) (c : HashResult) (npw : String)
    (u : User) (hc : lookupAL c b.users = some u) :
    (b.change_password c npw).1 = none ∧
    lookupAL (Bank.hash u.username npw) (b.change_password c npw).2.users =
      some u ∧
    (b.change_password c npw).2.balances = b.balances ∧
    (b.change_password c npw).2.events = b.events ∧
    (b.change_password c npw).2.interest_rate = b.interest_rate ∧
    (b.change_password c npw).2.tax_rate = b.tax_rate ∧
    (b.change_password c npw).2.existential_deposit =
      b.existential_deposit ∧
    (b.change_password c npw).2.user_id_counter = b.user_id_counter := by
  unfold Bank.change_password
  rw [hc]
  dsimp only
  exact ⟨rfl, lookupAL_insertAL_self, rfl, rfl, rfl, rfl, rfl, rfl⟩

theorem C10_witness :
    (Bcp.change_password ("a", "p") "q").1 = none ∧
    lookupAL (Bank.hash "a" "q") (Bcp.change_password ("a", "p") "q").2.users =
      some { id := 1, username := "a", role := Role.Customer } ∧
    (Bcp.change_password ("a", "p") "q").2.balances = Bcp.balances ∧
    (Bcp.change_password ("a", "p") "q").2.events = Bcp.events ∧
    (Bcp.change_password ("a", "p") "q").2.interest_rate =
      Bcp.interest_rate ∧
    (Bcp.change_password ("a", "p") "q").2.tax_rate = Bcp.tax_rate ∧
    (Bcp.change_password ("a", "p") "q").2.existential_deposit =
      Bcp.existential_deposit ∧
    (Bcp.change_password ("a", "p") "q").2.user_id_counter =
      Bcp.user_id_counter :=
  C10_change_password_frame Bcp ("a", "p") "q"
    { id := 1, username := "a", role := Role.Customer } (by decide)

/-- C5 counterexample: the role check runs before the self-transfer check, so
a Manager transferring to their own id gets Unauthorized rather than the
claimed unconditional Ok — the claim fails for non-Customer credentials. -/
theorem C5_counterexample :
    lookupAL ("m", "p") Bmgr.users =
      some { id := 1, username := "m", role := Role.Manager } ∧
    (Bmgr.transfer ("m", "p") 5 1).1 = some BankingError.Unauthorized := by
  exact ⟨by decide, by decide⟩

/-- C5 (amended): for a credential that resolves to a Customer, a transfer to
the caller's own id returns Ok and leaves the whole bank state unchanged —
no balance mutation and no event — for any amount, including zero and
negative amounts, bypassing the amount validation. -/
theorem C5_self_transfer_noop (b : Bank) (c : HashResult) (a : Balance)
    (u : User) (hc : lookupAL c b.users = some u)
    (hrole : u.role = Role.Customer) :
    b.transfer c a u.id = (none, b) := by
  unfold Bank.transfer Bank.assert_role
  rw [hc]
  dsimp only
  rw [if_pos hrole]
  dsimp only
  rw [if_pos rfl]

theorem C5_witness :
    Bcp.transfer ("a", "p") (-3) 1 = (none, Bcp) :=
  C5_self_transfer_noop Bcp ("a", "p") (-3)
    { id := 1, username := "a", role := Role.Customer } (by decide) (by decide)

/-- C8 counterexample: changing the password to the current password succeeds,
yet the old credential still resolves afterwards, because the recomputed
credential equals the old one — so the old credential is not always
invalidated. -/
theorem C8_counterexample :
    (Bcp.change_password ("a", "p") "p").1 = none ∧
    lookupAL ("a", "p") (Bcp.change_password ("a", "p") "p").2.users =
      some { id := 1, username := "a", role := Role.Customer } := by
  exact ⟨by decide, by decide⟩

/-- C8 (amended): provided the credential derived from the existing username
and the new password differs from the old credential (in particular whenever
the new password differs from the current one), a successful change_password
leaves no directory entry under the old credential, and the unchanged user
record is stored under the new credential. -/
theorem C8_change_password_invalidates (b : Bank) (c : HashResult)
    (npw : String) (u : User) (hkeys : keysNodup b.users)
    (hc : lookupAL c b.users = some u)
    (hne : Bank.hash u.username npw ≠ c) :
    (b.change_password c npw).1 = none ∧
    lookupAL c (b.change_password c npw).2.users = none ∧
    lookupAL (Bank.hash u.username npw) (b.change_password c npw).2.users =
      some u := by
  unfold Bank.change_password
  rw [hc]
  dsimp only
  refine ⟨rfl, ?_, lookupAL_insertAL_self⟩
  rw [lookupAL_insertAL_ne (fun hx => hne hx.symm)]
  exact lookupAL_removeAL_self hkeys

theorem C8_witness :
    (Bcp.change_password ("a", "p") "q").1 = none ∧
    lookupAL ("a", "p") (Bcp.change_password ("a", "p") "q").2.users = none ∧
    lookupAL ("a", "q") (Bcp.change_password ("a", "p") "q").2.users =
      some { id := 1, username := "a", role := Role.Customer } :=
  C8_change_password_invalidates Bcp ("a", "p") "q"
    { id := 1, username := "a", role := Role.Customer } (by decide) (by decide)
    (by decide)

/-- C6 counterexample: deposit with a credential absent from the directory and
a non-positive amount returns InvalidAmount, not UserNotFound — the amount
validation precedes credential resolution, contrary to the claim that an
absent credential yields UserNotFound for every amount. -/
theorem C6_counterexample :
    lookupAL ("x", "y") Bank.default.users = none ∧
    (Bank.default.deposit ("x", "y") (-1)).1 =
      some BankingError.InvalidAmount ∧
    (Bank.default.deposit ("x", "y") (-1)).1 ≠
      some BankingError.NoUserFound := by
  exact ⟨by decide, by decide, by decide⟩

/-- C6 (amended): in deposit and withdraw the amount validation runs before
credential resolution, and in set_interest_rate and set_tax_rate the rate
validation runs first; once the amount is positive (resp. the rate is in the
valid range), a credential absent from the directory yields UserNotFound
(NoUserFound) before any role comparison. -/
theorem C6_authorization_gate (b : Bank) (c : HashResult) (a r1 r2 : ℚ)
    (hc : lookupAL c b.users = none) (ha : 0 < a) (hr1 : 0 ≤ r1)
    (hr2 : 0 ≤ r2 ∧ r2 ≤ 1) :
    (b.deposit c a).1 = some BankingError.NoUserFound ∧
    (b.withdraw c a).1 = some BankingError.NoUserFound ∧
    (b.set_interest_rate c r1).1 = some BankingError.NoUserFound ∧
    (b.set_tax_rate c r2).1 = some BankingError.NoUserFound := by
  unfold Bank.deposit Bank.withdraw Bank.set_interest_rate Bank.set_tax_rate
    Bank.assert_role
  rw [hc]
  refine ⟨?_, ?_, ?_, ?_⟩
  · rw [if_neg (not_le.mpr ha)]
  · rw [if_neg (not_le.mpr ha)]
  · rw [if_neg (not_lt.mpr hr1)]
  · rw [if_neg (not_not_intro hr2)]

theorem C6_witness :
    (Bank.default.deposit ("x", "y") 10).1 =
      some BankingError.NoUserFound ∧
    (Bank.default.withdraw ("x", "y") 10).1 =
      some BankingError.NoUserFound ∧
    (Bank.default.set_interest_rate ("x", "y") 0).1 =
      some BankingError.NoUserFound ∧
    (Bank.default.set_tax_rate ("x", "y") 0).1 =
      some BankingError.NoUserFound :=
  C6_authorization_gate Bank.default ("x", "y") 10 0 0 (by decide) (by decide)
    (by decide) (by decide)

/-- C4: withdraw postcondition for a Customer caller with positive amount —
InsufficientBalance when there is no balance entry or the entry is below the
amount; otherwise the Withdrawal event is always appended, and then the entry
is either reaped (removed, with an AccountReaped event carrying the residual
after the Withdrawal event) when the new balance is below ED, or updated to
the new balance. -/
theorem C4_withdraw_post (b : Bank) (c : HashResult) (a : Balance) (u : User)
    (hc : lookupAL c b.users = some u) (hrole : u.role = Role.Customer)
    (ha : 0 < a) :
    (lookupAL u.id b.balances = none →
      b.withdraw c a = (some BankingError.InsufficientBalance, b)) ∧
    (∀ bal, lookupAL u.id b.balances = some bal → bal < a →
      b.withdraw c a = (some BankingError.InsufficientBalance, b)) ∧
    (∀ bal, lookupAL u.id b.balances = some bal → a ≤ bal →
      (b.withdraw c a).1 = none ∧
      (if bal - a < b.existential_deposit then
        (b.withdraw c a).2.balances = removeAL u.id b.balances ∧
        (b.withdraw c a).2.events = b.events ++
          [Event.Withdrawal u.id a, Event.AccountReaped u.id (bal - a)]
      else
        (b.withdraw c a).2.balances = insertAL u.id (bal - a) b.balances ∧
        (b.withdraw c a).2.events = b.events ++ [Event.Withdrawal u.id a])) := by
  unfold Bank.withdraw Bank.assert_role
  rw [hc, if_neg (not_le.mpr ha)]
  dsimp only
  rw [if_pos hrole]
  dsimp only
  refine ⟨?_, ?_, ?_⟩
  · intro hb
    rw [hb]
  · intro bal hb hlt
    rw [hb]
    dsimp only
    rw [if_neg (not_le.mpr hlt)]
  · intro bal hb hge
    rw [hb]
    dsimp only
    rw [if_pos hge]
    by_cases hed : bal - a < b.existential_deposit
    · rw [if_pos hed, if_neg (not_le.mpr hed)]
      exact ⟨rfl, rfl, List.append_assoc _ _ _⟩
    · rw [if_neg hed, if_pos (not_lt.mp hed)]
      exact ⟨rfl, rfl, rfl⟩

theorem C4_witness :
    (Bt1.withdraw ("u1", "p1") 998).1 = none ∧
    (if (1000 : ℚ) - 998 < Bt1.existential_deposit then
      (Bt1.withdraw ("u1", "p1") 998).2.balances = removeAL 1 Bt1.balances ∧
      (Bt1.withdraw ("u1", "p1") 998).2.events = Bt1.events ++
        [Event.Withdrawal 1 998, Event.AccountReaped 1 ((1000 : ℚ) - 998)]
    else
      (Bt1.withdraw ("u1", "p1") 998).2.balances =
        insertAL 1 ((1000 : ℚ) - 998) Bt1.balances ∧
      (Bt1.withdraw ("u1", "p1") 998).2.events = Bt1.events ++
        [Event.Withdrawal 1 998]) :=
  (C4_withdraw_post Bt1 ("u1", "p1") 998
    { id := 1, username := "u1", role := Role.Customer } (by decide) (by decide)
    (by decide)).2.2 1000 (by decide) (by decide)

/-- C7: conservation under transfer — for a successful transfer of a positive
amount between two distinct Customers with sufficient sender funds, the sum
of the two stored balances (absent entry read as zero) is preserved, except
that when the sender is reaped the sub-ED residual dust is subtracted from
the sum: it is destroyed, not credited to the recipient. -/
theorem C7_transfer_conservation (b : Bank) (c : HashResult) (a : Balance)
    (t : UserId) (u : User) (bal : Balance) (hkeys : keysNodup b.balances)
    (hc : lookupAL c b.users = some u) (hrole : u.role = Role.Customer)
    (hit : u.id ≠ t) (ha : 0 < a) (haed : b.existential_deposit ≤ a)
    (htarget : ∃ q ∈ b.users, q.2.id = t ∧ q.2.role = Role.Customer)
    (hb : lookupAL u.id b.balances = some bal) (hab : a ≤ bal) :
    (b.transfer c a t).1 = none ∧
    balAt (b.transfer c a t).2 u.id + balAt (b.transfer c a t).2 t =
      balAt b u.id + balAt b t -
        (if bal - a < b.existential_deposit then bal - a else 0) := by
  unfold Bank.transfer Bank.assert_role
  rw [hc]
  dsimp only
  rw [if_pos hrole]
  dsimp only
  rw [if_neg hit, if_neg (not_le.mpr ha), if_neg (not_lt.mpr haed)]
  cases hf : b.users.find? (fun p =>
      decide (p.2.id = t ∧ p.2.role = Role.Customer)) with
  | none =>
    exfalso
    rcases htarget with ⟨q, hqmem, hq1, hq2⟩
    have := List.find?_eq_none.mp hf q hqmem
    simp [hq1, hq2] at this
  | some q =>
    dsimp only
    rw [hb]
    dsimp only
    rw [if_pos hab]
    unfold balAt
    rw [hb]
    by_cases hed : bal - a < b.existential_deposit
    · rw [if_pos hed, if_neg (not_le.mpr hed)]
      dsimp only
      rw [lookupAL_insertAL_self,
        lookupAL_insertAL_ne (fun hx : u.id = t => hit hx),
        lookupAL_removeAL_self hkeys]
      dsimp only [Option.getD_some, Option.getD_none]
      refine ⟨rfl, ?_⟩
      ring
    · rw [if_neg hed, if_pos (not_lt.mp hed)]
      dsimp only
      rw [lookupAL_insertAL_self,
        lookupAL_insertAL_ne (fun hx : u.id = t => hit hx),
        lookupAL_insertAL_self]
      dsimp only [Option.getD_some]
      refine ⟨rfl, ?_⟩
      ring

theorem C7_witness :
    (Bt1.transfer ("u1", "p1") 500 2).1 = none ∧
    balAt (Bt1.transfer ("u1", "p1") 500 2).2 1 +
      balAt (Bt1.transfer ("u1", "p1") 500 2).2 2 =
      balAt Bt1 1 + balAt Bt1 2 -
        (if (1000 : ℚ) - 500 < Bt1.existential_deposit then 1000 - 500
         else 0) :=
  C7_transfer_conservation Bt1 ("u1", "p1") 500 2
    { id := 1, username := "u1", role := Role.Customer } 1000 (by decide)
    (by decide) (by decide) (by decide) (by decide) (by decide)
    ⟨(("u2", "p2"), { id := 2, username := "u2", role := Role.Customer }),
      by decide, by decide, by decide⟩ (by decide) (by decide)

/-- C1: ED floor — in every reachable state, after any withdraw, transfer or
take_tax, every entry remaining in the balance store is at least the
existential deposit; whenever one of these operations would leave an entry
below ED, the entry is removed and exactly one AccountReaped event is
appended for it, whose dust field is the sub-ED value the entry would have
held. -/
theorem C1_ed_floor (b : Bank) (hreach : Reachable b) :
    (∀ c a, ∀ p ∈ (b.withdraw c a).2.balances,
      b.existential_deposit ≤ p.2) ∧
    (∀ c a t, ∀ p ∈ (b.transfer c a t).2.balances,
      b.existential_deposit ≤ p.2) ∧
    (∀ c, ∀ p ∈ (b.take_tax c).2.balances, b.existential_deposit ≤ p.2) ∧
    (∀ c a u bal, lookupAL c b.users = some u → u.role = Role.Customer →
      0 < a → lookupAL u.id b.balances = some bal → a ≤ bal →
      bal - a < b.existential_deposit →
      (b.withdraw c a).1 = none ∧
      lookupAL u.id (b.withdraw c a).2.balances = none ∧
      (b.withdraw c a).2.events = b.events ++
        [Event.Withdrawal u.id a, Event.AccountReaped u.id (bal - a)]) ∧
    (∀ c a t u bal, lookupAL c b.users = some u → u.role = Role.Customer →
      u.id ≠ t → 0 < a → b.existential_deposit ≤ a →
      (∃ q ∈ b.users, q.2.id = t ∧ q.2.role = Role.Customer) →
      lookupAL u.id b.balances = some bal → a ≤ bal →
      bal - a < b.existential_deposit →
      (b.transfer c a t).1 = none ∧
      lookupAL u.id (b.transfer c a t).2.balances = none ∧
      (b.transfer c a t).2.events = b.events ++
        [Event.AccountReaped u.id (bal - a), Event.Transfer u.id t a]) ∧
    (∀ c u, lookupAL c b.users = some u → u.role = Role.Auditor →
      ∀ id v, (id, v) ∈ b.balances →
      v * (1 - b.tax_rate) < b.existential_deposit →
      (b.take_tax c).1 = none ∧
      lookupAL id (b.take_tax c).2.balances = none ∧
      ((b.take_tax c).2.events.drop b.events.length).countP (isReapOf id)
        = 1 ∧
      Event.AccountReaped id (v * (1 - b.tax_rate)) ∈
        (b.take_tax c).2.events.drop b.events.length) := by
  have hinv := reachable_inv hreach
  refine ⟨?_, ?_, ?_, ?_, ?_, ?_⟩
  · intro c a p hp
    have h2 := (inv_withdraw hinv c a).ed_floor p hp
    rw [(inv_withdraw hinv c a).ed_eq] at h2
    rw [hinv.ed_eq]
    exact h2
  · intro c a t p hp
    have h2 := (inv_transfer hinv c a t).ed_floor p hp
    rw [(inv_transfer hinv c a t).ed_eq] at h2
    rw [hinv.ed_eq]
    exact h2
  · intro c p hp
    have h2 := (inv_take_tax hinv c).ed_floor p hp
    rw [(inv_take_tax hinv c).ed_eq] at h2
    rw [hinv.ed_eq]
    exact h2
  · intro c a u bal hc hrole ha hb hab hed
    unfold Bank.withdraw Bank.assert_role
    rw [hc, if_neg (not_le.mpr ha)]
    dsimp only
    rw [if_pos hrole]
    dsimp only
    rw [hb]
    dsimp only
    rw [if_pos hab, if_neg (not_le.mpr hed)]
    refine ⟨rfl, ?_, List.append_assoc _ _ _⟩
    exact lookupAL_removeAL_self hinv.bal_keys
  · intro c a t u bal hc hrole hit ha haed htarget hb hab hed
    unfold Bank.transfer Bank.assert_role
    rw [hc]
    dsimp only
    rw [if_pos hrole]
    dsimp only
    rw [if_neg hit, if_neg (not_le.mpr ha), if_neg (not_lt.mpr haed)]
    cases hf : b.users.find? (fun p =>
        decide (p.2.id = t ∧ p.2.role = Role.Customer)) with
    | none =>
      exfalso
      rcases htarget with ⟨q, hqmem, hq1, hq2⟩
      have := List.find?_eq_none.mp hf q hqmem
      simp [hq1, hq2] at this
    | some q =>
      dsimp only
      rw [hb]
      dsimp only
      rw [if_pos hab, if_neg (not_le.mpr hed)]
      dsimp only
      refine ⟨rfl, ?_, List.append_assoc _ _ _⟩
      rw [lookupAL_insertAL_ne (fun hx : u.id = t => hit hx)]
      exact lookupAL_removeAL_self hinv.bal_keys
  · intro c u hc hurole id v hmem hnv
    unfold Bank.take_tax
    rw [hc]
    dsimp only
    rw [if_pos hurole]
    dsimp only
    have hb1keys : keysNodup
        (b.balances.map (fun p => (p.1, p.2 * (1 - b.tax_rate)))) := by
      unfold keysNodup
      rw [keys_map_eq (fun p => p.2 * (1 - b.tax_rate))]
      exact hinv.bal_keys
    have htr : (id, v * (1 - b.tax_rate), v * b.tax_rate) ∈
        taxTriples b.tax_rate b.balances := List.mem_map_of_mem _ hmem
    refine ⟨rfl, ?_, ?_, ?_⟩
    · exact taxLoop_reaps _ _ _ hb1keys htr hnv
    · rw [taxLoop_events]
      dsimp only
      rw [List.drop_left, taxEvents_countP]
      unfold taxTriples
      rw [List.countP_map]
      exact countP_keys_once hinv.bal_keys hmem _ (by simp [hnv])
        (fun q hq => by simp [hq])
    · rw [taxLoop_events]
      dsimp only
      rw [List.drop_left]
      exact mem_taxEvents _ htr hnv

theorem C1_witness :
    (Bt1.withdraw ("u1", "p1") 998).2.events = Bt1.events ++
      [Event.Withdrawal 1 998, Event.AccountReaped 1 ((1000 : ℚ) - 998)] :=
  ((C1_ed_floor Bt1 reachable_Bt1).2.2.2.1 ("u1", "p1") 998
    { id := 1, username := "u1", role := Role.Customer } 1000 (by decide)
    (by decide) (by decide) (by decide) (by decide)
    (by rw [show ((1000 : ℚ) - 998) = 2 by norm_num]; decide)).2.2

end BankingApp
